import Mathlib

set_option maxRecDepth 100000

/-!
Verification of the cryptographic core of the donation front-end repository:
the deterministic secp256k1 address deriver (feature-key CLI tool and the
web-app function deriveFeatureAddress) and the P-256 ECDH + AES-GCM hybrid
encryptor (crypto-utils CLI tool and the web-app function encryptMessage).

Modelling conventions:

* Bytes are Nat values (all produced bytes are < 256); byte strings are
  List Nat.  Hexadecimal text at the boundary is modelled with String and
  List Char, exactly following the JavaScript string operations.
* keccak256 (the ethers primitive the source calls) is implemented in full
  (Keccak-f[1600], rate 1088, original 0x01 padding) over Nat with explicit
  reduction modulo 2^64.
* Elliptic-curve points of a fixed prime-order cyclic group are represented
  by their discrete logarithm with respect to the group generator, reduced
  modulo the group order: the generator is 1, scalar multiplication of a
  point p by k is (p * k) mod order, and the point at infinity is 0.  This
  is the standard semantic model of the noble/webcrypto curve operations
  the source calls; point serialisation, deserialisation, the ECDH
  x-coordinate extraction and AES-GCM are external library primitives and
  are passed to the embedded functions as explicit parameters, with their
  library contracts stated as hypotheses of the theorems that need them.
* The group orders of secp256k1 and P-256 are proved prime below via
  Pratt certificates, so no primality is assumed.
-/

namespace DonationCore

/-! ## Generic byte helpers -/

/-- Big-endian value of a byte string (the value BigInt gives to its hex form). -/
def natFromBE (bs : List Nat) : Nat :=
  bs.foldl (fun acc b => 256 * acc + b) 0

/-- Fixed-width big-endian byte encoding of a natural number. -/
def beBytesFixed : Nat → Nat → List Nat
  | 0, _ => []
  | w + 1, v => (v / 256 ^ w % 256) :: beBytesFixed w (v % 256 ^ w)

/-- Little-endian 8-byte serialisation of a 64-bit lane. -/
def leBytes8 (w : Nat) : List Nat :=
  [w % 256, w / 2 ^ 8 % 256, w / 2 ^ 16 % 256, w / 2 ^ 24 % 256,
   w / 2 ^ 32 % 256, w / 2 ^ 40 % 256, w / 2 ^ 48 % 256, w / 2 ^ 56 % 256]

/-- Little-endian value of a byte string (lane loading order of Keccak). -/
def natFromLE (bs : List Nat) : Nat :=
  bs.foldr (fun b acc => b + 256 * acc) 0

/-- UTF-8 bytes of a string (the toUtf8Bytes / TextEncoder primitive). -/
def utf8Bytes (s : String) : List Nat :=
  s.toUTF8.toList.map (fun b => b.toNat)

/-! ## Keccak-256 (the ethers keccak256 primitive) -/

/-- 64-bit left rotation. -/
def rotl64 (x n : Nat) : Nat :=
  ((x <<< n) ||| (x >>> (64 - n))) % 2 ^ 64

/-- Round constants of Keccak-f[1600]. -/
def keccakRC : List Nat :=
  [0x1, 0x8082, 0x800000000000808a, 0x8000000080008000, 0x808b, 0x80000001,
   0x8000000080008081, 0x8000000000008009, 0x8a, 0x88, 0x80008009, 0x8000000a,
   0x8000808b, 0x800000000000008b, 0x8000000000008089, 0x8000000000008003,
   0x8000000000008002, 0x8000000000000080, 0x800a, 0x800000008000000a,
   0x8000000080008081, 0x8000000000008080, 0x80000001, 0x8000000080008008]

/-- Source lane of each destination lane under the pi permutation
(lane index is x + 5 * y). -/
def keccakPiSrc : List Nat :=
  [0, 6, 12, 18, 24, 3, 9, 10, 16, 22, 1, 7, 13, 19, 20, 4, 5, 11, 17, 23, 2, 8, 14, 15, 21]

/-- Rho rotation amount applied when filling each destination lane. -/
def keccakRhoRot : List Nat :=
  [0, 44, 43, 21, 14, 28, 20, 3, 45, 61, 1, 6, 25, 8, 18, 27, 36, 10, 15, 56, 62, 55, 39, 41, 2]

/-- Theta step: column parities mixed into every lane. -/
def keccakTheta (A : Nat → Nat) : Nat → Nat :=
  let C := fun x => A x ^^^ A (x + 5) ^^^ A (x + 10) ^^^ A (x + 15) ^^^ A (x + 20)
  let D := fun x => C ((x + 4) % 5) ^^^ rotl64 (C ((x + 1) % 5)) 1
  fun i => A i ^^^ D (i % 5)

/-- Combined rho rotation and pi lane permutation. -/
def keccakRhoPi (A : Nat → Nat) : Nat → Nat :=
  fun t => rotl64 (A (keccakPiSrc.getD t 0)) (keccakRhoRot.getD t 0)

/-- Chi step: nonlinear row mixing (complement is xor with the 64-bit mask). -/
def keccakChi (B : Nat → Nat) : Nat → Nat :=
  fun i =>
    let x := i % 5
    let y := i / 5
    B i ^^^ ((B ((x + 1) % 5 + 5 * y) ^^^ (2 ^ 64 - 1)) &&& B ((x + 2) % 5 + 5 * y))

/-- One Keccak-f round with round constant rc.  The 25 lanes are
materialised into a list so that repeated reads do not recompute the
round. -/
def keccakRound (A : Nat → Nat) (rc : Nat) : Nat → Nat :=
  let B := (List.range 25).map (keccakChi (keccakRhoPi (keccakTheta A)))
  fun i => if i = 0 then B.getD 0 0 ^^^ rc else B.getD i 0

/-- The full 24-round Keccak-f[1600] permutation. -/
def keccakF (A : Nat → Nat) : Nat → Nat :=
  keccakRC.foldl keccakRound A

/-- Original Keccak padding (0x01 domain byte) to a multiple of the
136-byte rate, as used by Ethereum keccak256. -/
def keccakPad (msg : List Nat) : List Nat :=
  let padLen := 136 - msg.length % 136
  if padLen = 1 then msg ++ [0x81]
  else msg ++ 0x01 :: List.replicate (padLen - 2) 0 ++ [0x80]

/-- Split a byte string into 136-byte rate blocks. -/
def chunks136 (l : List Nat) : List (List Nat) :=
  if h : l = [] then []
  else l.take 136 :: chunks136 (l.drop 136)
termination_by l.length
decreasing_by
  simp only [List.length_drop]
  have : 0 < l.length := List.length_pos.mpr h
  omega

/-- Xor one rate block into the first 17 lanes of the state. -/
def keccakAbsorb (A : Nat → Nat) (blk : List Nat) : Nat → Nat :=
  fun i => if i < 17 then A i ^^^ natFromLE ((blk.drop (8 * i)).take 8) else A i

/-- keccak256 digest (32 bytes) of a byte string. -/
def keccakBytes (msg : List Nat) : List Nat :=
  let final := (chunks136 (keccakPad msg)).foldl (fun st blk => keccakF (keccakAbsorb st blk)) (fun _ => 0)
  leBytes8 (final 0) ++ leBytes8 (final 1) ++ leBytes8 (final 2) ++ leBytes8 (final 3)

/-! ## Hexadecimal plumbing at the host boundary -/

/-- Lowercase hex digit characters. -/
def nibbleChar (n : Nat) : Char :=
  "0123456789abcdef".toList.getD n '0'

/-- Lowercase hex text of a byte string (Buffer toString hex / ab2hex). -/
def hexOfBytes (bs : List Nat) : List Char :=
  bs.flatMap (fun b => [nibbleChar (b / 16 % 16), nibbleChar (b % 16)])

/-- Numeric value of one hex digit character; 0 on other characters. -/
def hexDigitVal (c : Char) : Nat :=
  if '0' ≤ c ∧ c ≤ '9' then c.toNat - 48
  else if 'a' ≤ c ∧ c ≤ 'f' then c.toNat - 87
  else if 'A' ≤ c ∧ c ≤ 'F' then c.toNat - 55
  else 0

/-- Whether JavaScript parseInt with radix 16 accepts the character. -/
def isHexDigitJS (c : Char) : Bool :=
  ('0' ≤ c && c ≤ '9') || ('a' ≤ c && c ≤ 'f') || ('A' ≤ c && c ≤ 'F')

/-- The hex string returned by the ethers keccak256 call: 0x followed by
64 lowercase hex characters. -/
def keccak256HexStr (bs : List Nat) : String :=
  "0x" ++ String.mk (hexOfBytes (keccakBytes bs))

/-- Value of a 0x-prefixed hex literal, as computed by BigInt. -/
def bigIntOfHex (s : String) : Nat :=
  (s.toList.drop 2).foldl (fun acc c => 16 * acc + hexDigitVal c) 0

/-! ## Deterministic address deriver (feature-key CLI tool and
packages/app/src/utils/constants.ts) -/

/-- The secp256k1 group order constant SECP256K1_ORDER of both sources. -/
def SECP256K1_ORDER : Nat :=
  0xfffffffffffffffffffffffffffffffebaaedce6af48a03bbfd25e8cd0364141

/-- hashFeatureIdToScalar of the CLI tool: keccak256 of the UTF-8 bytes of
the identifier as a hex string, read by BigInt, reduced modulo the group
order, a zero result remapped to 1. -/
def hashFeatureIdToScalar (featureId : String) : Nat :=
  let digest := keccak256HexStr (utf8Bytes featureId)
  let scalar := bigIntOfHex digest % SECP256K1_ORDER
  if scalar = 0 then 1 else scalar

/-- hashFeatureIdToScalar of the web app (constants.ts); the body is the
same code as the CLI copy. -/
def hashFeatureIdToScalarApp (featureId : String) : Nat :=
  let digest := keccak256HexStr (utf8Bytes featureId)
  let scalar := bigIntOfHex digest % SECP256K1_ORDER
  if scalar = 0 then 1 else scalar

/-- Scalar pipeline of the derive command (feature-key CLI lines 67-70):
derivedScalar := ownerScalar * featureScalar mod order, remapped to 1 when
zero.  The input is the BigInt value of the normalised private-key hex. -/
def deriveScalarCLI (ownerScalar : Nat) (featureId : String) : Nat :=
  let featureScalar := hashFeatureIdToScalar featureId
  let derivedScalar := (ownerScalar * featureScalar) % SECP256K1_ORDER
  if derivedScalar = 0 then 1 else derivedScalar

/-- Discrete-log model of secp256k1.getPublicKey: the point s * G. -/
def secpGenMulDlog (s : Nat) : Nat := s % SECP256K1_ORDER

/-- Discrete-log model of ProjectivePoint.multiply: point p times scalar s. -/
def secpPointMulDlog (p s : Nat) : Nat := (p * s) % SECP256K1_ORDER

/-! Spec-modelled counterparts (section 4.1 of the specification), used to
state the refinement claims C4 and C5. -/

/-- Modelled from the spec: scalarFromIdentifier hashes the UTF-8 bytes of
the identifier, reduces the hash value modulo the curve group order and
remaps a zero result to 1. -/
def scalarFromIdentifier (identifier : String) : Nat :=
  let h := natFromBE (keccakBytes (utf8Bytes identifier))
  let s := h % SECP256K1_ORDER
  if s = 0 then 1 else s

/-- Modelled from the spec: derivePrivate computes
rootPrivate * scalarFromIdentifier(identifier) mod n, remapping a zero
result to 1. -/
def derivePrivateSpec (rootPrivate : Nat) (identifier : String) : Nat :=
  let s := (rootPrivate * scalarFromIdentifier identifier) % SECP256K1_ORDER
  if s = 0 then 1 else s

/-! ## Checksummed addresses (the ethers getAddress primitive and the
address pipelines of both sources) -/

/-- The last k characters of a string (JavaScript slice with a negative
index, on a string at least k characters long). -/
def jsSliceLast (k : Nat) (s : String) : String :=
  String.mk (s.toList.drop (s.toList.length - k))

/-- The ethers getAddress primitive on a 0x-prefixed 40-hex-digit string:
lowercases the address and applies the EIP-55 mixed-case checksum (keccak256
of the ASCII bytes of the lowercase hex address; a digit is uppercased when
its hash nibble is at least 8).  The source only ever passes all-lowercase
strings, so the mixed-case checksum validation branch never fires and is
not modelled. -/
def getAddress (s : String) : String :=
  let addrChars := (s.toList.drop 2).map Char.toLower
  let hashed := keccakBytes (addrChars.map Char.toNat)
  let nibs := hashed.flatMap (fun b => [b / 16 % 16, b % 16])
  "0x" ++ String.mk ((addrChars.zip (nibs.take 40)).map
    (fun p => if 8 ≤ p.2 then p.1.toUpper else p.1))

/-- deriveAddressFromPoint of the CLI tool: keccak256 of the uncompressed
point bytes with the leading format byte stripped, last 40 hex characters,
checksummed by getAddress. -/
def deriveAddressFromPoint (uncompressedPoint : List Nat) : String :=
  let hash := keccak256HexStr (uncompressedPoint.drop 1)
  getAddress ("0x" ++ jsSliceLast 40 hash)

/-- The address tail of deriveFeatureAddress in the web app
(constants.ts lines 72-73); the body is the same code as the CLI copy. -/
def appAddressFromPoint (uncompressed : List Nat) : String :=
  let hash := keccak256HexStr (uncompressed.drop 1)
  getAddress ("0x" ++ jsSliceLast 40 hash)

/-- deriveFeatureAddress of the web app: hash the feature id to a scalar,
multiply the fixed root point by it, serialise the derived point
uncompressed and derive the checksummed address.  The root point and the
uncompressed point serialisation of the curve library are parameters
(rootDlog is the discrete log of FEATURE_ROOT_PUBKEY, enc the
toRawBytes(false) serialisation on the discrete-log model). -/
def deriveFeatureAddress (enc : Nat → List Nat) (rootDlog : Nat) (featureId : String) : String :=
  let scalar := hashFeatureIdToScalarApp featureId
  let derivedPoint := secpPointMulDlog rootDlog scalar
  appAddressFromPoint (enc derivedPoint)

/-- Modelled from the spec: addressFromPublic hashes the uncompressed point
encoding with the leading format byte stripped, takes the low 20 bytes of
the hash and applies the standard EIP-55 mixed-case checksum encoding. -/
def addressFromPublicSpec (pt : List Nat) : String :=
  let addr20 := (keccakBytes (pt.drop 1)).drop 12
  let cs := hexOfBytes addr20
  let hashed := keccakBytes (cs.map Char.toNat)
  let nibs := hashed.flatMap (fun b => [b / 16 % 16, b % 16])
  "0x" ++ String.mk ((cs.zip (nibs.take 40)).map
    (fun p => if 8 ≤ p.2 then p.1.toUpper else p.1))

/-! ## Hex decoders of the two sources (claim C8) -/

/-- Split a character list into chunks of two with a possibly shorter final
chunk: the JavaScript regex match against one or two arbitrary characters. -/
def chunks2 : List Char → List (List Char)
  | [] => []
  | [c] => [[c]]
  | a :: b :: rest => [a, b] :: chunks2 rest

/-- JavaScript parseInt with radix 16 on a short chunk: parses the longest
valid leading hex-digit run; NaN (none) when the first character is not a
hex digit. -/
def jsParseIntHexChunk (cs : List Char) : Option Nat :=
  let ds := cs.takeWhile (fun c => isHexDigitJS c)
  if ds = [] then none
  else some (ds.foldl (fun acc c => 16 * acc + hexDigitVal c) 0)

/-- hex2ab of the web app (utils/encryption.ts lines 2-4): chunk the string
into one-or-two character groups, parseInt each with radix 16, collect in a
Uint8Array.  A NaN chunk value is coerced to the byte 0 by the Uint8Array
constructor; an empty string yields the empty array. -/
def hex2ab (hex : String) : List Nat :=
  (chunks2 hex.toList).map (fun ch => ((jsParseIntHexChunk ch).getD 0) % 256)

/-- hex2ab of the CLI tool (crypto-utils): Buffer.from(hex, hex) decodes
hex pairs from the start and stops silently at the first invalid pair or
dangling single character, returning the prefix decoded so far. -/
def hex2abNode : List Char → List Nat
  | a :: b :: rest =>
      if isHexDigitJS a && isHexDigitJS b then
        (16 * hexDigitVal a + hexDigitVal b) :: hex2abNode rest
      else []
  | _ => []

/-! ## Hybrid encryptor/decryptor (crypto-utils CLI tool and
packages/app/src/utils/encryption.ts)

The P-256 curve group has prime order; points are modelled by their
discrete logarithm modulo that order.  The webcrypto primitives the source
calls — raw point export (exportKey), raw point import (importKey), the
ECDH shared-bits extraction (deriveBits) and AES-GCM — are parameters of
the embedded functions:

* ptB : the 65-byte uncompressed serialisation of a point,
* pFrom : strict deserialisation (succeeds exactly on valid encodings),
* shB : the 32-byte ECDH output for a shared point,
* aesGcmEnc / aesGcmDec : AES-256-GCM seal and open.
-/

/-- The P-256 group order. -/
def P256_ORDER : Nat :=
  0xffffffff00000000ffffffffffffffffbce6faada7179e84f3b9cac2fc632551

/-- Discrete-log model of generating a P-256 public key from a private
scalar: the point s * G. -/
def p256GenMulDlog (s : Nat) : Nat := s % P256_ORDER

/-- Discrete-log model of the ECDH scalar multiplication deriveBits
performs: point p times private scalar s. -/
def p256PointMulDlog (p s : Nat) : Nat := (p * s) % P256_ORDER

/-- encrypt of the CLI tool (crypto-utils lines 26-80): import the owner
public key, generate an ephemeral pair, derive the ECDH shared bits with
the ephemeral private key, use them directly as the AES-GCM key, encrypt
the message under a fresh 12-byte IV, and emit
ephemeralPubKey (65 bytes) then IV (12 bytes) then ciphertext.
Randomness (ephemeralPrivate, iv) is passed in explicitly. -/
def eciesEncrypt (ptB : Nat → List Nat) (shB : Nat → List Nat)
    (aesGcmEnc : List Nat → List Nat → List Nat → List Nat)
    (ownerPubDlog ephemeralPrivate : Nat) (iv msg : List Nat) : List Nat :=
  let sharedSecretBits := shB (p256PointMulDlog ownerPubDlog ephemeralPrivate)
  let ciphertext := aesGcmEnc sharedSecretBits iv msg
  ptB (p256GenMulDlog ephemeralPrivate) ++ iv ++ ciphertext

/-- decrypt of the CLI tool (crypto-utils lines 82-139): split the blob at
offsets 65 and 77, import the ephemeral public key (failure rejects the
operation), derive the same ECDH shared bits with the owner private key and
open the AES-GCM ciphertext; a tag failure yields no plaintext. -/
def eciesDecrypt (pFrom : List Nat → Option Nat) (shB : Nat → List Nat)
    (aesGcmDec : List Nat → List Nat → List Nat → Option (List Nat))
    (ownerPrivate : Nat) (blob : List Nat) : Option (List Nat) :=
  let ephemeralPubKeyBytes := blob.take 65
  let iv := (blob.drop 65).take 12
  let ciphertext := blob.drop 77
  match pFrom ephemeralPubKeyBytes with
  | none => none
  | some eph => aesGcmDec (shB (p256PointMulDlog eph ownerPrivate)) iv ciphertext

/-- encryptMessage of the web app (utils/encryption.ts lines 12-72): the
same construction as the CLI encrypt on the UTF-8 bytes of the message,
returning the blob as a lowercase hex string via ab2hex. -/
def encryptMessage (ptB : Nat → List Nat) (shB : Nat → List Nat)
    (aesGcmEnc : List Nat → List Nat → List Nat → List Nat)
    (ownerPubDlog ephemeralPrivate : Nat) (iv : List Nat) (message : String) : String :=
  let encodedMessage := utf8Bytes message
  let sharedSecretBits := shB (p256PointMulDlog ownerPubDlog ephemeralPrivate)
  let ciphertext := aesGcmEnc sharedSecretBits iv encodedMessage
  let output := ptB (p256GenMulDlog ephemeralPrivate) ++ iv ++ ciphertext
  String.mk (hexOfBytes output)

/-- Two byte strings of equal length that differ in exactly one position
(the result of flipping bits inside a single byte). -/
def oneEntryDiff (l l' : List Nat) : Prop :=
  l.length = l'.length ∧
    ∃ i, i < l.length ∧ l.getD i 0 ≠ l'.getD i 0 ∧
      ∀ j, j < l.length → j ≠ i → l.getD j 0 = l'.getD j 0

instance (l l' : List Nat) : Decidable (oneEntryDiff l l') := by
  unfold oneEntryDiff
  infer_instance

/-! ## Concrete instantiations of the external primitives

The theorems about the encryptor are parameterised by the library
primitives together with their contracts as hypotheses; the definitions
below are concrete, executable instantiations satisfying those contracts,
used by the witness theorems.
-/

/-- Base-3 digit stream of a byte string: each entry contributes the
separator digit 2 followed by its binary digits. -/
def sepDigits (l : List Nat) : List Nat :=
  l.flatMap (fun b => 2 :: Nat.digits 2 b)

/-- Injective numeric code of a byte string: its digit stream with a
trailing marker digit, read in base 3.  Linear-size, so it evaluates on
concrete inputs. -/
def encL (l : List Nat) : Nat :=
  Nat.ofDigits 3 (sepDigits l ++ [1])

/-- Injective numeric code of a (key, iv, message) triple. -/
def encTriple (k iv m : List Nat) : Nat :=
  encL [encL k, encL iv, encL m]

/-- A sixteen-entry authentication tag determined by key, nonce and
message. -/
def tagList (k iv m : List Nat) : List Nat :=
  encTriple k iv m :: List.replicate 15 0

/-- Instantiation of the AES-GCM seal operation: ciphertext is the message
followed by a sixteen-entry tag binding key, nonce and message. -/
def toyEnc (k iv m : List Nat) : List Nat :=
  m ++ tagList k iv m

/-- Instantiation of the AES-GCM open operation: recompute and compare the
tag, returning the payload only on an exact match. -/
def toyDec (k iv c : List Nat) : Option (List Nat) :=
  let m := c.take (c.length - 16)
  if c = toyEnc k iv m then some m else none

/-- Instantiation of the uncompressed point serialisation: format byte 4
followed by the 64-byte big-endian value of the point. -/
def toyPtB (p : Nat) : List Nat :=
  4 :: beBytesFixed 64 p

/-- Instantiation of strict point deserialisation: succeeds exactly on the
canonical encoding of a reduced discrete log. -/
def toyPFrom (bs : List Nat) : Option Nat :=
  let v := natFromBE (bs.drop 1)
  if v < P256_ORDER ∧ bs = 4 :: beBytesFixed 64 v then some v else none

/-- Instantiation of the ECDH shared-bits extraction: the 32-byte
big-endian value of the shared point. -/
def toyShB (p : Nat) : List Nat :=
  beBytesFixed 32 p

/-! ## Fast modular exponentiation and Pratt certificates

powMod is structurally recursive on an explicit fuel argument so that the
kernel can evaluate it on 256-bit inputs; fuel 300 suffices for every
exponent below 2 to the 300. -/

/-- Square-and-multiply exponentiation modulo n, recursing on fuel; the
base is squared on the way down so each level makes one recursive call. -/
def powModAux : Nat → Nat → Nat → Nat → Nat
  | 0, _, _, n => 1 % n
  | fuel + 1, a, e, n =>
    if e = 0 then 1 % n
    else if e % 2 = 0 then powModAux fuel (a * a % n) (e / 2) n
    else powModAux fuel (a * a % n) (e / 2) n * (a % n) % n

/-- a to the e modulo n, for exponents below 2 to the 300. -/
def powMod (a e n : Nat) : Nat := powModAux 300 a e n

/-! ## Theorems.  First the Pratt-certificate infrastructure. -/

theorem powModAux_lt {n : Nat} (hn : 0 < n) :
    ∀ fuel a e, powModAux fuel a e n < n := by
  intro fuel
  induction fuel with
  | zero => intro a e; exact Nat.mod_lt _ hn
  | succ f ih =>
    intro a e
    simp only [powModAux]
    split
    · exact Nat.mod_lt _ hn
    · split
      · exact ih _ _
      · exact Nat.mod_lt _ hn

theorem powModAux_eq {n : Nat} :
    ∀ fuel a e, e < 2 ^ fuel → powModAux fuel a e n = a ^ e % n := by
  intro fuel
  induction fuel with
  | zero =>
    intro a e he
    have h0 : e = 0 := by simpa using he
    subst h0
    simp [powModAux]
  | succ f ih =>
    intro a e he
    by_cases h0 : e = 0
    · simp [powModAux, h0]
    · have hhalf : e / 2 < 2 ^ f := by
        have : e < 2 ^ f * 2 := by
          simpa [Nat.pow_succ] using he
        omega
      have hrec := ih (a * a % n) (e / 2) hhalf
      have hsq : (a * a % n) ^ (e / 2) % n = a ^ (2 * (e / 2)) % n := by
        rw [← Nat.pow_mod, ← pow_two, pow_mul]
      by_cases hpar : e % 2 = 0
      · have he2 : 2 * (e / 2) = e := by omega
        simp only [powModAux, h0, if_false, hpar, if_true, hrec, hsq, he2]
      · have he2 : 2 * (e / 2) + 1 = e := by omega
        simp only [powModAux, h0, if_false, hpar, if_true]
        rw [hrec, hsq, ← Nat.mul_mod, ← pow_succ, he2]

theorem powMod_eq {a e n : Nat} (he : e < 2 ^ 300) : powMod a e n = a ^ e % n :=
  powModAux_eq 300 a e he

/-- Pratt certificate rule: p is prime when some a has order p - 1 in
ZMod p, witnessed through a complete prime factorisation ps of p - 1
(with multiplicity) and kernel-checkable powMod computations. -/
theorem prime_of_pratt (p a : Nat) (ps : List Nat) (hp : 1 < p) (hple : p ≤ 2 ^ 300)
    (hprod : ps.prod = p - 1)
    (hps : ∀ q ∈ ps, Nat.Prime q)
    (ha : powMod a (p - 1) p = 1 % p)
    (hd : ∀ q ∈ ps, powMod a ((p - 1) / q) p ≠ 1 % p) : Nat.Prime p := by
  haveI : NeZero p := ⟨by omega⟩
  have hebound : ∀ e : Nat, e ≤ p - 1 → e < 2 ^ 300 := by
    intro e hle
    omega
  have hcast : ∀ e : Nat, e ≤ p - 1 → ((a : ZMod p)) ^ e = ((powMod a e p : Nat) : ZMod p) := by
    intro e hle
    rw [powMod_eq (hebound e hle), ← Nat.cast_pow, ZMod.natCast_mod]
  have hone : ((1 % p : Nat) : ZMod p) = 1 := by
    rw [Nat.mod_eq_of_lt hp, Nat.cast_one]
  apply lucas_primality p (a : ZMod p)
  · rw [hcast (p - 1) le_rfl, ha, hone]
  · intro q hq hqdvd
    have hqps : q ∈ ps := by
      rw [← hprod] at hqdvd
      rcases (Nat.Prime.prime hq).dvd_prod_iff.mp hqdvd with ⟨r, hr, hqr⟩
      rwa [(Nat.prime_dvd_prime_iff_eq hq (hps r hr)).mp hqr]
    intro hcontra
    apply hd q hqps
    rw [hcast ((p - 1) / q) (Nat.div_le_self _ _)] at hcontra
    have h1 : ((powMod a ((p - 1) / q) p : Nat) : ZMod p) = ((1 % p : Nat) : ZMod p) := by
      rw [hone]
      exact hcontra
    have hlt1 : powMod a ((p - 1) / q) p < p := powModAux_lt (by omega) 300 a _
    have hlt2 : 1 % p < p := Nat.mod_lt _ (by omega)
    calc powMod a ((p - 1) / q) p
        = ((powMod a ((p - 1) / q) p : Nat) : ZMod p).val := (ZMod.val_cast_of_lt hlt1).symm
      _ = ((1 % p : Nat) : ZMod p).val := by rw [h1]
      _ = 1 % p := ZMod.val_cast_of_lt hlt2

/-! Pratt certificates for the secp256k1 group order, bottom up.  Prime
factors below a million are settled by norm_num inside each certificate;
larger ones carry their own certificate so that no proof term grows deep. -/

theorem prime_1627771 : Nat.Prime 1627771 :=
  prime_of_pratt 1627771 3 [2, 3, 5, 29, 1871]
    (by norm_num) (by norm_num) (by decide)
    (by intro q hq; fin_cases hq <;> norm_num)
    (by decide) (by decide)

theorem prime_545358713 : Nat.Prime 545358713 :=
  prime_of_pratt 545358713 5 [2, 2, 2, 41, 59, 28181]
    (by norm_num) (by norm_num) (by decide)
    (by intro q hq; fin_cases hq <;> norm_num)
    (by decide) (by decide)

theorem prime_4681609 : Nat.Prime 4681609 :=
  prime_of_pratt 4681609 23 [2, 2, 2, 3, 97, 2011]
    (by norm_num) (by norm_num) (by decide)
    (by intro q hq; fin_cases hq <;> norm_num)
    (by decide) (by decide)

theorem prime_44706919 : Nat.Prime 44706919 :=
  prime_of_pratt 44706919 6 [2, 3, 797, 9349]
    (by norm_num) (by norm_num) (by decide)
    (by intro q hq; fin_cases hq <;> norm_num)
    (by decide) (by decide)

theorem prime_3969899 : Nat.Prime 3969899 :=
  prime_of_pratt 3969899 2 [2, 19, 104471]
    (by norm_num) (by norm_num) (by decide)
    (by intro q hq; fin_cases hq <;> norm_num)
    (by decide) (by decide)

theorem prime_191039911 : Nat.Prime 191039911 :=
  prime_of_pratt 191039911 3 [2, 3, 5, 41, 155317]
    (by norm_num) (by norm_num) (by decide)
    (by intro q hq; fin_cases hq <;> norm_num)
    (by decide) (by decide)

theorem prime_9350987 : Nat.Prime 9350987 :=
  prime_of_pratt 9350987 2 [2, 17, 229, 1201]
    (by norm_num) (by norm_num) (by decide)
    (by intro q hq; fin_cases hq <;> norm_num)
    (by decide) (by decide)

theorem prime_187019741 : Nat.Prime 187019741 :=
  prime_of_pratt 187019741 2 [2, 2, 5, 9350987]
    (by norm_num) (by norm_num) (by decide)
    (by intro q hq; fin_cases hq <;> first
        | exact prime_9350987
        | norm_num)
    (by decide) (by decide)

theorem prime_311245691 : Nat.Prime 311245691 :=
  prime_of_pratt 311245691 2 [2, 5, 7, 17, 29, 29, 311]
    (by norm_num) (by norm_num) (by decide)
    (by intro q hq; fin_cases hq <;> norm_num)
    (by decide) (by decide)

theorem prime_622491383 : Nat.Prime 622491383 :=
  prime_of_pratt 622491383 5 [2, 311245691]
    (by norm_num) (by norm_num) (by decide)
    (by intro q hq; fin_cases hq <;> first
        | exact prime_311245691
        | norm_num)
    (by decide) (by decide)

theorem prime_297159362677 : Nat.Prime 297159362677 :=
  prime_of_pratt 297159362677 2 [2, 2, 3, 3, 11, 461, 1627771]
    (by norm_num) (by norm_num) (by decide)
    (by intro q hq; fin_cases hq <;> first
        | exact prime_1627771
        | norm_num)
    (by decide) (by decide)

theorem prime_29047611873442575647497758179 :
    Nat.Prime 29047611873442575647497758179 :=
  prime_of_pratt 29047611873442575647497758179 2
    [2, 293, 305873, 545358713, 297159362677]
    (by norm_num) (by norm_num) (by decide)
    (by intro q hq; fin_cases hq <;> first
        | exact prime_545358713
        | exact prime_297159362677
        | norm_num)
    (by decide) (by decide)

theorem prime_341948486974166000522343609283189 :
    Nat.Prime 341948486974166000522343609283189 :=
  prime_of_pratt 341948486974166000522343609283189 2
    [2, 2, 3, 3, 3, 109, 29047611873442575647497758179]
    (by norm_num) (by norm_num) (by decide)
    (by intro q hq; fin_cases hq <;> first
        | exact prime_29047611873442575647497758179
        | norm_num)
    (by decide) (by decide)

theorem prime_107361793816595537 : Nat.Prime 107361793816595537 :=
  prime_of_pratt 107361793816595537 3 [2, 2, 2, 2, 16699, 85831, 4681609]
    (by norm_num) (by norm_num) (by decide)
    (by intro q hq; fin_cases hq <;> first
        | exact prime_4681609
        | norm_num)
    (by decide) (by decide)

theorem prime_174723607534414371449 : Nat.Prime 174723607534414371449 :=
  prime_of_pratt 174723607534414371449 3
    [2, 2, 2, 17, 59, 4051, 120233, 44706919]
    (by norm_num) (by norm_num) (by decide)
    (by intro q hq; fin_cases hq <;> first
        | exact prime_44706919
        | norm_num)
    (by decide) (by decide)

/-- The secp256k1 group order is prime. -/
theorem prime_SECP256K1_ORDER : Nat.Prime SECP256K1_ORDER :=
  prime_of_pratt SECP256K1_ORDER 7
    [2, 2, 2, 2, 2, 2, 3, 149, 631, 107361793816595537,
     174723607534414371449, 341948486974166000522343609283189]
    (by norm_num [SECP256K1_ORDER]) (by norm_num [SECP256K1_ORDER]) (by decide)
    (by intro q hq; fin_cases hq <;> first
        | exact prime_107361793816595537
        | exact prime_174723607534414371449
        | exact prime_341948486974166000522343609283189
        | norm_num)
    (by decide) (by decide)

/-! Pratt certificates for the P-256 group order. -/

theorem prime_1002328039319 : Nat.Prime 1002328039319 :=
  prime_of_pratt 1002328039319 19 [2, 126241, 3969899]
    (by norm_num) (by norm_num) (by decide)
    (by intro q hq; fin_cases hq <;> first
        | exact prime_3969899
        | norm_num)
    (by decide) (by decide)

theorem prime_208150935158385979 : Nat.Prime 208150935158385979 :=
  prime_of_pratt 208150935158385979 2 [2, 3, 11, 43, 127, 3023, 191039911]
    (by norm_num) (by norm_num) (by decide)
    (by intro q hq; fin_cases hq <;> first
        | exact prime_191039911
        | norm_num)
    (by decide) (by decide)

theorem prime_2624747550333869278416773953 :
    Nat.Prime 2624747550333869278416773953 :=
  prime_of_pratt 2624747550333869278416773953 7
    [2, 2, 2, 2, 2, 2, 3, 3, 1297, 16879, 208150935158385979]
    (by norm_num) (by norm_num) (by decide)
    (by intro q hq; fin_cases hq <;> first
        | exact prime_208150935158385979
        | norm_num)
    (by decide) (by decide)

/-- The P-256 group order is prime. -/
theorem prime_P256_ORDER : Nat.Prime P256_ORDER :=
  prime_of_pratt P256_ORDER 7
    [2, 2, 2, 2, 3, 71, 131, 373, 3407, 17449, 38189, 187019741,
     622491383, 1002328039319, 2624747550333869278416773953]
    (by norm_num [P256_ORDER]) (by norm_num [P256_ORDER]) (by decide)
    (by intro q hq; fin_cases hq <;> first
        | exact prime_187019741
        | exact prime_622491383
        | exact prime_1002328039319
        | exact prime_2624747550333869278416773953
        | norm_num)
    (by decide) (by decide)

/-! ## Byte-level lemmas -/

theorem beBytesFixed_length : ∀ w v, (beBytesFixed w v).length = w := by
  intro w
  induction w with
  | zero => intro v; rfl
  | succ k ih => intro v; simp [beBytesFixed, ih]

theorem natFromBE_foldl (l : List Nat) :
    ∀ acc, l.foldl (fun a b => 256 * a + b) acc = acc * 256 ^ l.length + natFromBE l := by
  induction l with
  | nil => intro acc; simp [natFromBE]
  | cons b t ih =>
    intro acc
    simp only [List.foldl_cons, List.length_cons]
    rw [ih (256 * acc + b)]
    have h0 : natFromBE (b :: t) = b * 256 ^ t.length + natFromBE t := by
      show List.foldl (fun a c => 256 * a + c) (256 * 0 + b) t = _
      rw [show 256 * 0 + b = b by omega, ih b]
    rw [h0]
    ring

theorem natFromBE_cons (b : Nat) (t : List Nat) :
    natFromBE (b :: t) = b * 256 ^ t.length + natFromBE t := by
  show List.foldl (fun a c => 256 * a + c) (256 * 0 + b) t = _
  rw [show 256 * 0 + b = b by omega, natFromBE_foldl t b]

theorem natFromBE_beBytesFixed : ∀ w v, v < 256 ^ w → natFromBE (beBytesFixed w v) = v := by
  intro w
  induction w with
  | zero =>
    intro v hv
    interval_cases v
    rfl
  | succ k ih =>
    intro v hv
    have hpos : 0 < 256 ^ k := pow_pos (by omega) k
    have hmod : v % 256 ^ k < 256 ^ k := Nat.mod_lt _ hpos
    have hdiv : v / 256 ^ k < 256 := by
      rw [Nat.div_lt_iff_lt_mul hpos]
      calc v < 256 ^ (k + 1) := hv
        _ = 256 * 256 ^ k := by ring
    simp only [beBytesFixed, natFromBE_cons, beBytesFixed_length, ih _ hmod]
    rw [Nat.mod_eq_of_lt hdiv]
    exact Nat.div_add_mod' v (256 ^ k)

theorem beBytesFixed_inj {w v v' : Nat} (hv : v < 256 ^ w) (hv' : v' < 256 ^ w)
    (h : beBytesFixed w v = beBytesFixed w v') : v = v' := by
  rw [← natFromBE_beBytesFixed w v hv, ← natFromBE_beBytesFixed w v' hv', h]

theorem leBytes8_length (w : Nat) : (leBytes8 w).length = 8 := rfl

theorem leBytes8_lt (w : Nat) : ∀ b ∈ leBytes8 w, b < 256 := by
  intro b hb
  simp only [leBytes8, List.mem_cons, List.not_mem_nil, or_false] at hb
  rcases hb with h | h | h | h | h | h | h | h <;>
    (subst h; exact Nat.mod_lt _ (by omega))

theorem keccakBytes_length (msg : List Nat) : (keccakBytes msg).length = 32 := by
  simp [keccakBytes, leBytes8]

theorem keccakBytes_lt (msg : List Nat) : ∀ b ∈ keccakBytes msg, b < 256 := by
  intro b hb
  simp only [keccakBytes, List.mem_append] at hb
  rcases hb with (((h | h) | h) | h) <;> exact leBytes8_lt _ b h

/-! ## Hexadecimal lemmas -/

theorem hexOfBytes_cons (b : Nat) (t : List Nat) :
    hexOfBytes (b :: t) =
      nibbleChar (b / 16 % 16) :: nibbleChar (b % 16) :: hexOfBytes t := by
  simp [hexOfBytes, List.flatMap_cons]

theorem hexOfBytes_length (bs : List Nat) : (hexOfBytes bs).length = 2 * bs.length := by
  induction bs with
  | nil => rfl
  | cons b t ih =>
    rw [hexOfBytes_cons]
    simp only [List.length_cons, List.length_cons, ih]
    omega

theorem hexOfBytes_drop : ∀ (k : Nat) (bs : List Nat),
    hexOfBytes (bs.drop k) = (hexOfBytes bs).drop (2 * k) := by
  intro k
  induction k with
  | zero => intro bs; simp
  | succ j ih =>
    intro bs
    cases bs with
    | nil => simp [hexOfBytes]
    | cons b t =>
      calc hexOfBytes ((b :: t).drop (j + 1)) = hexOfBytes (t.drop j) := by
            rw [List.drop_succ_cons]
        _ = (hexOfBytes t).drop (2 * j) := ih t
        _ = (hexOfBytes (b :: t)).drop (2 * (j + 1)) := by
            rw [hexOfBytes_cons, show 2 * (j + 1) = 2 * j + 1 + 1 by omega,
              List.drop_succ_cons, List.drop_succ_cons]

theorem toLower_nibbleChar (n : Nat) : (nibbleChar n).toLower = nibbleChar n := by
  by_cases h : n < 16
  · interval_cases n <;> decide
  · have hlen : ("0123456789abcdef".toList).length ≤ n := by
      have h16 : ("0123456789abcdef".toList).length = 16 := by decide
      omega
    rw [nibbleChar, List.getD_eq_default _ _ hlen]
    decide

theorem map_toLower_hexOfBytes (bs : List Nat) :
    (hexOfBytes bs).map Char.toLower = hexOfBytes bs := by
  induction bs with
  | nil => rfl
  | cons b t ih =>
    rw [hexOfBytes_cons, List.map_cons, List.map_cons, toLower_nibbleChar,
      toLower_nibbleChar, ih]

theorem hexDigitVal_nibbleChar {n : Nat} (h : n < 16) : hexDigitVal (nibbleChar n) = n := by
  interval_cases n <;> decide

theorem foldl16_hexOfBytes : ∀ (bs : List Nat), (∀ b ∈ bs, b < 256) → ∀ acc,
    (hexOfBytes bs).foldl (fun a c => 16 * a + hexDigitVal c) acc =
      bs.foldl (fun a b => 256 * a + b) acc := by
  intro bs
  induction bs with
  | nil => intro _ acc; rfl
  | cons b t ih =>
    intro hlt acc
    have hb : b < 256 := hlt b (by simp)
    rw [hexOfBytes_cons, List.foldl_cons, List.foldl_cons, List.foldl_cons,
      ih (fun x hx => hlt x (List.mem_cons_of_mem b hx))]
    congr 1
    rw [hexDigitVal_nibbleChar (show b / 16 % 16 < 16 by omega),
      hexDigitVal_nibbleChar (show b % 16 < 16 by omega)]
    omega

theorem bigIntOfHex_keccak256HexStr (bs : List Nat) :
    bigIntOfHex (keccak256HexStr bs) = natFromBE (keccakBytes bs) := by
  show (hexOfBytes (keccakBytes bs)).foldl (fun a c => 16 * a + hexDigitVal c) 0 =
    natFromBE (keccakBytes bs)
  rw [foldl16_hexOfBytes _ (keccakBytes_lt bs) 0]
  rfl

/-- The 40-character tail of the keccak256 hex string is the hex text of
the low 20 bytes of the digest. -/
theorem jsSliceLast_keccak (bs : List Nat) :
    jsSliceLast 40 (keccak256HexStr bs) =
      String.mk (hexOfBytes ((keccakBytes bs).drop 12)) := by
  unfold jsSliceLast keccak256HexStr
  have htl : ("0x" ++ String.mk (hexOfBytes (keccakBytes bs))).toList
      = '0' :: 'x' :: hexOfBytes (keccakBytes bs) := rfl
  rw [htl]
  have hlen : ('0' :: 'x' :: hexOfBytes (keccakBytes bs)).length = 66 := by
    simp [List.length_cons, hexOfBytes_length, keccakBytes_length]
  rw [hlen]
  have hd : ('0' :: 'x' :: hexOfBytes (keccakBytes bs)).drop (66 - 40)
      = (hexOfBytes (keccakBytes bs)).drop 24 := rfl
  rw [hd, show (24 : Nat) = 2 * 12 from rfl, ← hexOfBytes_drop]

/-- Shared helper: the CLI address pipeline equals the spec-side
addressFromPublic on every point encoding. -/
theorem cliAddr_eq_specAddr (pt : List Nat) :
    deriveAddressFromPoint pt = addressFromPublicSpec pt := by
  show getAddress ("0x" ++ jsSliceLast 40 (keccak256HexStr (pt.drop 1))) = _
  rw [jsSliceLast_keccak]
  simp only [getAddress, addressFromPublicSpec]
  have htl : ("0x" ++ String.mk (hexOfBytes ((keccakBytes (pt.drop 1)).drop 12))).toList
      = '0' :: 'x' :: hexOfBytes ((keccakBytes (pt.drop 1)).drop 12) := rfl
  rw [htl]
  have hd2 : ('0' :: 'x' :: hexOfBytes ((keccakBytes (pt.drop 1)).drop 12)).drop 2
      = hexOfBytes ((keccakBytes (pt.drop 1)).drop 12) := rfl
  rw [hd2, map_toLower_hexOfBytes]

/-- Shared helper: the two copies of the address pipeline are the same
function. -/
theorem cliAddr_eq_appAddr (pt : List Nat) :
    deriveAddressFromPoint pt = appAddressFromPoint pt := rfl

/-! ## Scalar-derivation lemmas -/

theorem secp_order_two_le : 2 ≤ SECP256K1_ORDER := by norm_num [SECP256K1_ORDER]

theorem hashFeatureIdToScalar_pos (id : String) : 1 ≤ hashFeatureIdToScalar id := by
  simp only [hashFeatureIdToScalar]
  split
  · omega
  · omega

theorem hashFeatureIdToScalar_lt (id : String) :
    hashFeatureIdToScalar id < SECP256K1_ORDER := by
  simp only [hashFeatureIdToScalar]
  have hmod : bigIntOfHex (keccak256HexStr (utf8Bytes id)) % SECP256K1_ORDER
      < SECP256K1_ORDER := Nat.mod_lt _ (by have := secp_order_two_le; omega)
  split
  · have := secp_order_two_le; omega
  · exact hmod

/-- Shared helper: the CLI hash-to-scalar equals the spec-modelled
scalarFromIdentifier (the hex round trip through BigInt is the identity). -/
theorem hashFeatureIdToScalar_eq_spec (id : String) :
    hashFeatureIdToScalar id = scalarFromIdentifier id := by
  simp only [hashFeatureIdToScalar, scalarFromIdentifier]
  rw [bigIntOfHex_keccak256HexStr]

/-- Shared helper: the product of a scalar in range with the feature scalar
is never divisible by the group order, so the remap branch never fires. -/
theorem deriveScalarCLI_eq (a : Nat) (id : String) (h1 : 1 ≤ a)
    (h2 : a < SECP256K1_ORDER) :
    deriveScalarCLI a id = (a * hashFeatureIdToScalar id) % SECP256K1_ORDER ∧
      (a * hashFeatureIdToScalar id) % SECP256K1_ORDER ≠ 0 := by
  have hh1 := hashFeatureIdToScalar_pos id
  have hh2 := hashFeatureIdToScalar_lt id
  have hne : (a * hashFeatureIdToScalar id) % SECP256K1_ORDER ≠ 0 := by
    intro h0
    have hdvd : SECP256K1_ORDER ∣ a * hashFeatureIdToScalar id :=
      Nat.dvd_of_mod_eq_zero h0
    rcases (Nat.Prime.dvd_mul prime_SECP256K1_ORDER).mp hdvd with hda | hdh
    · have := Nat.le_of_dvd (by omega) hda
      omega
    · have := Nat.le_of_dvd (by omega) hdh
      omega
  refine ⟨?_, hne⟩
  simp only [deriveScalarCLI, if_neg hne]

/-! ## Claim theorems for the address deriver -/

/-- C6: for every curve point, the address is computed by keccak256-hashing
the uncompressed point encoding with its leading format byte stripped,
taking the low 20 bytes of the hash and applying the standard EIP-55
mixed-case checksum; identically in the web app and the CLI tool. -/
theorem address_from_public_correct (pt : List Nat) :
    deriveAddressFromPoint pt = appAddressFromPoint pt ∧
      deriveAddressFromPoint pt = addressFromPublicSpec pt :=
  ⟨cliAddr_eq_appAddr pt, cliAddr_eq_specAddr pt⟩

/-- C5: for every root private scalar and identifier, the derived private
key of the CLI derive command equals rootPrivate times
scalarFromIdentifier(identifier) mod n, a zero result remapped to 1 (the
spec-modelled derivePrivate). -/
theorem derive_private_matches_spec (r : Nat) (id : String) :
    deriveScalarCLI r id = derivePrivateSpec r id := by
  simp only [deriveScalarCLI, derivePrivateSpec, hashFeatureIdToScalar_eq_spec]

/-- C4: the feature scalar is identical in the app and the CLI, always lies
in the range 1 to n - 1 (a zero reduction is remapped to 1), the derived
private scalar is never zero, and multiplying any valid root point (the
hypothesis states it is not the point at infinity) by the feature scalar
never yields the point at infinity. -/
theorem scalar_from_identifier_nondegenerate (id : String) (a rootDlog : Nat)
    (hroot : rootDlog % SECP256K1_ORDER ≠ 0) :
    hashFeatureIdToScalarApp id = hashFeatureIdToScalar id ∧
      1 ≤ hashFeatureIdToScalar id ∧
      hashFeatureIdToScalar id ≤ SECP256K1_ORDER - 1 ∧
      deriveScalarCLI a id ≠ 0 ∧
      secpPointMulDlog rootDlog (hashFeatureIdToScalar id) ≠ 0 := by
  have hh1 := hashFeatureIdToScalar_pos id
  have hh2 := hashFeatureIdToScalar_lt id
  refine ⟨rfl, hh1, by omega, ?_, ?_⟩
  · simp only [deriveScalarCLI]
    split
    · omega
    · assumption
  · intro h0
    have hdvd : SECP256K1_ORDER ∣ rootDlog * hashFeatureIdToScalar id :=
      Nat.dvd_of_mod_eq_zero h0
    rcases (Nat.Prime.dvd_mul prime_SECP256K1_ORDER).mp hdvd with hda | hdh
    · obtain ⟨c, hc⟩ := hda
      subst hc
      exact hroot (Nat.mul_mod_right _ _)
    · have := Nat.le_of_dvd (by omega) hdh
      omega

/-- Witness for C4 at the empty identifier with the generator as root. -/
theorem scalar_from_identifier_nondegenerate_witness :
    hashFeatureIdToScalarApp "" = hashFeatureIdToScalar "" ∧
      1 ≤ hashFeatureIdToScalar "" ∧
      hashFeatureIdToScalar "" ≤ SECP256K1_ORDER - 1 ∧
      deriveScalarCLI 0 "" ≠ 0 ∧
      secpPointMulDlog 1 (hashFeatureIdToScalar "") ≠ 0 :=
  scalar_from_identifier_nondegenerate "" 0 1 (by decide)

/-- C2: for every identifier and root private scalar in range, multiplying
the generator by the derived private scalar gives the same point as
multiplying the root public point by the feature scalar, and consequently
the CLI and web-app address pipelines agree on the derived point for every
point serialisation. -/
theorem derivations_consistent (id : String) (a : Nat) (h1 : 1 ≤ a)
    (h2 : a ≤ SECP256K1_ORDER - 1) :
    secpGenMulDlog (deriveScalarCLI a id) =
        secpPointMulDlog (secpGenMulDlog a) (hashFeatureIdToScalar id) ∧
      ∀ enc : Nat → List Nat,
        deriveAddressFromPoint (enc (secpGenMulDlog (deriveScalarCLI a id))) =
          appAddressFromPoint
            (enc (secpPointMulDlog (secpGenMulDlog a) (hashFeatureIdToScalar id))) := by
  have horder := secp_order_two_le
  have halt : a < SECP256K1_ORDER := by omega
  obtain ⟨heq, hne⟩ := deriveScalarCLI_eq a id h1 halt
  have hmain : secpGenMulDlog (deriveScalarCLI a id) =
      secpPointMulDlog (secpGenMulDlog a) (hashFeatureIdToScalar id) := by
    rw [heq]
    simp only [secpGenMulDlog, secpPointMulDlog]
    rw [Nat.mod_eq_of_lt (Nat.mod_lt _ (by omega)), Nat.mod_eq_of_lt halt]
  exact ⟨hmain, fun enc => by rw [hmain]; exact cliAddr_eq_appAddr _⟩

/-- Witness for C2 at a concrete identifier and root scalar 1. -/
theorem derivations_consistent_witness :
    secpGenMulDlog (deriveScalarCLI 1 "feat-001") =
        secpPointMulDlog (secpGenMulDlog 1) (hashFeatureIdToScalar "feat-001") ∧
      ∀ enc : Nat → List Nat,
        deriveAddressFromPoint (enc (secpGenMulDlog (deriveScalarCLI 1 "feat-001"))) =
          appAddressFromPoint
            (enc (secpPointMulDlog (secpGenMulDlog 1) (hashFeatureIdToScalar "feat-001"))) :=
  derivations_consistent "feat-001" 1 (by decide) (by decide)

/-- C9: the web-app address derivation is a deterministic function of the
root point and the identifier: equal identifier strings always derive the
identical address. -/
theorem derive_feature_address_deterministic (enc : Nat → List Nat) (rootDlog : Nat)
    (id1 id2 : String) (h : id1 = id2) :
    deriveFeatureAddress enc rootDlog id1 = deriveFeatureAddress enc rootDlog id2 := by
  rw [h]

/-- Witness for C9 at the feat-001 identifier. -/
theorem derive_feature_address_deterministic_witness :
    deriveFeatureAddress (fun p => [p]) 1 "feat-001" =
      deriveFeatureAddress (fun p => [p]) 1 "feat-001" :=
  derive_feature_address_deterministic (fun p => [p]) 1 "feat-001" "feat-001" rfl

/-! ## Encryptor lemmas -/

theorem p256_order_two_le : 2 ≤ P256_ORDER := by norm_num [P256_ORDER]

theorem p256GenMulDlog_lt (s : Nat) : p256GenMulDlog s < P256_ORDER :=
  Nat.mod_lt _ (by have := p256_order_two_le; omega)

theorem p256PointMulDlog_lt (p s : Nat) : p256PointMulDlog p s < P256_ORDER :=
  Nat.mod_lt _ (by have := p256_order_two_le; omega)

/-- ECDH agreement: the shared point computed by the encryptor (ephemeral
private key times owner public point) equals the one computed by the
decryptor (owner private key times ephemeral public point). -/
theorem p256_dh_comm (e o : Nat) :
    p256PointMulDlog (p256GenMulDlog e) o = p256PointMulDlog (p256GenMulDlog o) e := by
  simp only [p256PointMulDlog, p256GenMulDlog]
  rw [Nat.mod_mul_mod, Nat.mod_mul_mod, Nat.mul_comm]

/-- Splitting the encryptor output at the fixed offsets recovers the three
sections. -/
theorem ecies_blob_sections (A iv C : List Nat) (hA : A.length = 65)
    (hiv : iv.length = 12) :
    (A ++ iv ++ C).take 65 = A ∧ ((A ++ iv ++ C).drop 65).take 12 = iv ∧
      (A ++ iv ++ C).drop 77 = C := by
  have hassoc : A ++ iv ++ C = A ++ (iv ++ C) := List.append_assoc A iv C
  have hdropA : (A ++ iv ++ C).drop 65 = iv ++ C := by
    rw [hassoc]
    exact List.drop_left' hA
  refine ⟨?_, ?_, ?_⟩
  · rw [hassoc]
    exact List.take_left' hA
  · rw [hdropA]
    exact List.take_left' hiv
  · have h77 : (A ++ iv ++ C).drop 77 = ((A ++ iv ++ C).drop 65).drop 12 := by
      rw [List.drop_drop]
    rw [h77, hdropA]
    exact List.drop_left' hiv

/-- Shared helper: the ECIES round trip, parameterised by the library
primitives and their contracts. -/
theorem ecies_round_trip_helper (ptB : Nat → List Nat) (pFrom : List Nat → Option Nat)
    (shB : Nat → List Nat)
    (aesGcmEnc : List Nat → List Nat → List Nat → List Nat)
    (aesGcmDec : List Nat → List Nat → List Nat → Option (List Nat))
    (ownerPrivate ephemeralPrivate : Nat) (iv msg : List Nat)
    (hpt : (ptB (p256GenMulDlog ephemeralPrivate)).length = 65)
    (hiv : iv.length = 12)
    (hdec : pFrom (ptB (p256GenMulDlog ephemeralPrivate)) =
      some (p256GenMulDlog ephemeralPrivate))
    (haead : ∀ k n m, aesGcmDec k n (aesGcmEnc k n m) = some m) :
    eciesDecrypt pFrom shB aesGcmDec ownerPrivate
      (eciesEncrypt ptB shB aesGcmEnc (p256GenMulDlog ownerPrivate) ephemeralPrivate iv msg)
      = some msg := by
  obtain ⟨h1, h2, h3⟩ := ecies_blob_sections (ptB (p256GenMulDlog ephemeralPrivate)) iv
    (aesGcmEnc (shB (p256PointMulDlog (p256GenMulDlog ownerPrivate) ephemeralPrivate)) iv msg)
    hpt hiv
  simp only [eciesEncrypt, eciesDecrypt, h1, h2, h3, hdec]
  rw [p256_dh_comm ephemeralPrivate ownerPrivate]
  exact haead _ _ _

/-! ## Contract lemmas for the concrete instantiations -/

theorem p256_order_lt_pow : P256_ORDER < 256 ^ 64 := by decide

theorem toyPtB_length (p : Nat) : (toyPtB p).length = 65 := by
  simp [toyPtB, beBytesFixed_length]

theorem toyPFrom_toyPtB {p : Nat} (hp : p < P256_ORDER) : toyPFrom (toyPtB p) = some p := by
  have hlt : p < 256 ^ 64 := lt_trans hp p256_order_lt_pow
  have hv : natFromBE ((toyPtB p).drop 1) = p := by
    show natFromBE (beBytesFixed 64 p) = p
    exact natFromBE_beBytesFixed 64 p hlt
  simp only [toyPFrom, hv]
  rw [if_pos ⟨hp, rfl⟩]

theorem tagList_length (k iv m : List Nat) : (tagList k iv m).length = 16 := by
  simp [tagList]

theorem toyEnc_length (k iv m : List Nat) : (toyEnc k iv m).length = m.length + 16 := by
  simp [toyEnc, tagList]

theorem toyEnc_take (k iv m : List Nat) :
    (toyEnc k iv m).take ((toyEnc k iv m).length - 16) = m := by
  rw [toyEnc_length, show m.length + 16 - 16 = m.length by omega]
  exact List.take_left' rfl

theorem toy_round (k iv m : List Nat) : toyDec k iv (toyEnc k iv m) = some m := by
  simp [toyDec, toyEnc_take]

/-! ## Claim theorems for the encryptor -/

/-- C1: decrypt composed with encrypt is the identity on plaintexts, for
every valid recipient key pair (the recipient public point is the generator
times the recipient private scalar) and every message, under the library
contracts: the point serialisation is 65 bytes and deserialises to the
same point, the IV is 12 bytes, and AES-GCM opens its own sealings. -/
theorem encrypt_decrypt_round_trip (ptB : Nat → List Nat) (pFrom : List Nat → Option Nat)
    (shB : Nat → List Nat)
    (aesGcmEnc : List Nat → List Nat → List Nat → List Nat)
    (aesGcmDec : List Nat → List Nat → List Nat → Option (List Nat))
    (recipientPrivate ephemeralPrivate : Nat) (iv msg : List Nat)
    (hpt : (ptB (p256GenMulDlog ephemeralPrivate)).length = 65)
    (hiv : iv.length = 12)
    (hdec : pFrom (ptB (p256GenMulDlog ephemeralPrivate)) =
      some (p256GenMulDlog ephemeralPrivate))
    (haead : ∀ k n m, aesGcmDec k n (aesGcmEnc k n m) = some m) :
    eciesDecrypt pFrom shB aesGcmDec recipientPrivate
      (eciesEncrypt ptB shB aesGcmEnc (p256GenMulDlog recipientPrivate)
        ephemeralPrivate iv msg) = some msg :=
  ecies_round_trip_helper ptB pFrom shB aesGcmEnc aesGcmDec recipientPrivate
    ephemeralPrivate iv msg hpt hiv hdec haead

/-- Witness for C1 with the concrete instantiations at key pair 3, ephemeral
key 5 and message bytes 1 2 3. -/
theorem encrypt_decrypt_round_trip_witness :
    eciesDecrypt toyPFrom toyShB toyDec 3
      (eciesEncrypt toyPtB toyShB toyEnc (p256GenMulDlog 3) 5
        (List.replicate 12 0) [1, 2, 3]) = some [1, 2, 3] :=
  encrypt_decrypt_round_trip toyPtB toyPFrom toyShB toyEnc toyDec 3 5
    (List.replicate 12 0) [1, 2, 3] (toyPtB_length _) (by simp)
    (toyPFrom_toyPtB (p256GenMulDlog_lt 5)) toy_round

/-- C7: the encryptor output has the fixed layout (bytes 0 to 64 the
uncompressed ephemeral public key, bytes 65 to 76 the 12-byte nonce, the
rest the ciphertext with its 16-byte tag), and decrypt splits the blob at
exactly these offsets before processing the sections. -/
theorem blob_fixed_layout (ptB : Nat → List Nat) (pFrom : List Nat → Option Nat)
    (shB : Nat → List Nat)
    (aesGcmEnc : List Nat → List Nat → List Nat → List Nat)
    (aesGcmDec : List Nat → List Nat → List Nat → Option (List Nat))
    (ownerPubDlog ephemeralPrivate b : Nat) (iv msg : List Nat)
    (hpt : ∀ p, (ptB p).length = 65) (hiv : iv.length = 12)
    (hct : ∀ key n m, (aesGcmEnc key n m).length = m.length + 16) :
    (eciesEncrypt ptB shB aesGcmEnc ownerPubDlog ephemeralPrivate iv msg).take 65
        = ptB (p256GenMulDlog ephemeralPrivate) ∧
      ((eciesEncrypt ptB shB aesGcmEnc ownerPubDlog ephemeralPrivate iv msg).drop 65).take 12
        = iv ∧
      (eciesEncrypt ptB shB aesGcmEnc ownerPubDlog ephemeralPrivate iv msg).drop 77
        = aesGcmEnc (shB (p256PointMulDlog ownerPubDlog ephemeralPrivate)) iv msg ∧
      ((eciesEncrypt ptB shB aesGcmEnc ownerPubDlog ephemeralPrivate iv msg).drop 77).length
        = msg.length + 16 ∧
      eciesDecrypt pFrom shB aesGcmDec b
          (eciesEncrypt ptB shB aesGcmEnc ownerPubDlog ephemeralPrivate iv msg)
        = match pFrom (ptB (p256GenMulDlog ephemeralPrivate)) with
          | none => none
          | some eph => aesGcmDec (shB (p256PointMulDlog eph b)) iv
              (aesGcmEnc (shB (p256PointMulDlog ownerPubDlog ephemeralPrivate)) iv msg) := by
  obtain ⟨h1, h2, h3⟩ := ecies_blob_sections (ptB (p256GenMulDlog ephemeralPrivate)) iv
    (aesGcmEnc (shB (p256PointMulDlog ownerPubDlog ephemeralPrivate)) iv msg)
    (hpt _) hiv
  simp only [eciesEncrypt]
  refine ⟨h1, h2, h3, ?_, ?_⟩
  · rw [h3, hct]
  · simp only [eciesDecrypt, h1, h2, h3]

/-- Witness for C7 with the concrete instantiations. -/
theorem blob_fixed_layout_witness :
    (eciesEncrypt toyPtB toyShB toyEnc 2 5 (List.replicate 12 0) [9]).take 65
        = toyPtB (p256GenMulDlog 5) ∧
      ((eciesEncrypt toyPtB toyShB toyEnc 2 5 (List.replicate 12 0) [9]).drop 65).take 12
        = List.replicate 12 0 ∧
      (eciesEncrypt toyPtB toyShB toyEnc 2 5 (List.replicate 12 0) [9]).drop 77
        = toyEnc (toyShB (p256PointMulDlog 2 5)) (List.replicate 12 0) [9] ∧
      ((eciesEncrypt toyPtB toyShB toyEnc 2 5 (List.replicate 12 0) [9]).drop 77).length
        = ([9] : List Nat).length + 16 ∧
      eciesDecrypt toyPFrom toyShB toyDec 2
          (eciesEncrypt toyPtB toyShB toyEnc 2 5 (List.replicate 12 0) [9])
        = match toyPFrom (toyPtB (p256GenMulDlog 5)) with
          | none => none
          | some eph => toyDec (toyShB (p256PointMulDlog eph 2)) (List.replicate 12 0)
              (toyEnc (toyShB (p256PointMulDlog 2 5)) (List.replicate 12 0) [9]) :=
  blob_fixed_layout toyPtB toyPFrom toyShB toyEnc toyDec 2 5 2
    (List.replicate 12 0) [9] toyPtB_length (by simp) toyEnc_length

/-- C10: the blob is 93 bytes plus the UTF-8 length of the message (65-byte
ephemeral key, 12-byte IV, plaintext plus 16-byte tag), and the hex string
the web app returns has twice that many characters. -/
theorem encrypt_message_length (ptB : Nat → List Nat) (shB : Nat → List Nat)
    (aesGcmEnc : List Nat → List Nat → List Nat → List Nat)
    (ownerPubDlog ephemeralPrivate : Nat) (iv : List Nat) (message : String)
    (hpt : (ptB (p256GenMulDlog ephemeralPrivate)).length = 65)
    (hiv : iv.length = 12)
    (hct : ∀ key n m, (aesGcmEnc key n m).length = m.length + 16) :
    (eciesEncrypt ptB shB aesGcmEnc ownerPubDlog ephemeralPrivate iv
        (utf8Bytes message)).length = 93 + (utf8Bytes message).length ∧
      (encryptMessage ptB shB aesGcmEnc ownerPubDlog ephemeralPrivate iv message).length
        = 2 * (93 + (utf8Bytes message).length) := by
  have hblob : (eciesEncrypt ptB shB aesGcmEnc ownerPubDlog ephemeralPrivate iv
      (utf8Bytes message)).length = 93 + (utf8Bytes message).length := by
    simp only [eciesEncrypt, List.length_append, hpt, hiv, hct]
    omega
  refine ⟨hblob, ?_⟩
  have hrepr : encryptMessage ptB shB aesGcmEnc ownerPubDlog ephemeralPrivate iv message
      = String.mk (hexOfBytes (eciesEncrypt ptB shB aesGcmEnc ownerPubDlog
          ephemeralPrivate iv (utf8Bytes message))) := rfl
  rw [hrepr]
  show (hexOfBytes _).length = _
  rw [hexOfBytes_length, hblob]

/-- Witness for C10 at the message hi. -/
theorem encrypt_message_length_witness :
    (eciesEncrypt toyPtB toyShB toyEnc 2 5 (List.replicate 12 0)
        (utf8Bytes "hi")).length = 93 + (utf8Bytes "hi").length ∧
      (encryptMessage toyPtB toyShB toyEnc 2 5 (List.replicate 12 0) "hi").length
        = 2 * (93 + (utf8Bytes "hi").length) :=
  encrypt_message_length toyPtB toyShB toyEnc 2 5 (List.replicate 12 0) "hi"
    (toyPtB_length _) (by simp) toyEnc_length

/-- Counterexample to C8 as stated: malformed hex does not surface a typed
failure.  The web-app hex2ab silently turns the malformed string zz into
the zero-filled byte array, and the CLI hex decoder silently truncates
aazz to its valid prefix instead of failing. -/
theorem hex_decode_silently_coerces :
    hex2ab "zz" = [0] ∧ hex2abNode "aazz".toList = [170] ∧ hex2ab "0q" = [0] := by
  decide

/-- Amended C8: decrypt surfaces point-decode and authentication failures
— it returns a plaintext only when the ephemeral-point import succeeded
and AES-GCM opened the ciphertext to exactly that plaintext, so an
authentication failure is never masked as successful decryption.  (The
malformed-hex part of the claim is false: see the counterexample.) -/
theorem decrypt_never_masks_failure (pFrom : List Nat → Option Nat)
    (shB : Nat → List Nat)
    (aesGcmDec : List Nat → List Nat → List Nat → Option (List Nat))
    (b : Nat) (blob m : List Nat)
    (h : eciesDecrypt pFrom shB aesGcmDec b blob = some m) :
    ∃ eph, pFrom (blob.take 65) = some eph ∧
      aesGcmDec (shB (p256PointMulDlog eph b)) ((blob.drop 65).take 12)
        (blob.drop 77) = some m := by
  simp only [eciesDecrypt] at h
  cases hp : pFrom (blob.take 65) with
  | none => rw [hp] at h; simp at h
  | some eph =>
    rw [hp] at h
    exact ⟨eph, rfl, h⟩

/-! ## Single-position corruption: list lemmas -/

theorem getD_take_of_lt {l : List Nat} {k i : Nat} (h : i < k) :
    (l.take k).getD i 0 = l.getD i 0 := by
  by_cases hl : i < l.length
  · have h1 : i < (l.take k).length := by simp [List.length_take]; omega
    rw [List.getD_eq_getElem _ _ h1, List.getD_eq_getElem _ _ hl]
    simp [List.getElem_take]
  · have h1 : (l.take k).length ≤ i := by simp [List.length_take]; omega
    rw [List.getD_eq_default _ _ h1, List.getD_eq_default _ _ (by omega)]

theorem getD_drop_add {l : List Nat} (k i : Nat) :
    (l.drop k).getD i 0 = l.getD (k + i) 0 := by
  by_cases hl : k + i < l.length
  · have h1 : i < (l.drop k).length := by simp [List.length_drop]; omega
    rw [List.getD_eq_getElem _ _ h1, List.getD_eq_getElem _ _ hl]
    simp [List.getElem_drop]
  · have h1 : (l.drop k).length ≤ i := by simp [List.length_drop]; omega
    rw [List.getD_eq_default _ _ h1, List.getD_eq_default _ _ (by omega)]

theorem oneEntryDiff_ne {l l' : List Nat} (h : oneEntryDiff l l') : l ≠ l' := by
  obtain ⟨hlen, i, hi, hdi, hj⟩ := h
  intro he
  subst he
  exact hdi rfl

theorem oneEntryDiff_cons_head {a b : Nat} (t : List Nat) (hab : a ≠ b) :
    oneEntryDiff (a :: t) (b :: t) := by
  refine ⟨rfl, 0, by simp, by simpa using hab, ?_⟩
  intro j hj hj0
  cases j with
  | zero => exact absurd rfl hj0
  | succ j' => simp [List.getD_cons_succ]

/-- A single differing position is entirely inside the first k entries or
entirely outside them. -/
theorem oneEntryDiff_split (k : Nat) {l l' : List Nat} (h : oneEntryDiff l l') :
    (l.take k = l'.take k ∧ oneEntryDiff (l.drop k) (l'.drop k)) ∨
      (oneEntryDiff (l.take k) (l'.take k) ∧ l.drop k = l'.drop k) := by
  obtain ⟨hlen, i, hi, hdi, hagree⟩ := h
  by_cases hik : i < k
  · right
    constructor
    · refine ⟨by simp [hlen], i, ?_, ?_, ?_⟩
      · simp only [List.length_take]
        omega
      · rw [getD_take_of_lt hik, getD_take_of_lt hik]
        exact hdi
      · intro j hj hji
        rw [getD_take_of_lt, getD_take_of_lt]
        · exact hagree j (by simp [List.length_take] at hj; omega) hji
        · simp only [List.length_take] at hj
          omega
        · simp only [List.length_take] at hj
          omega
    · apply List.ext_getElem (by simp [hlen])
      intro j h1 h2
      have hj1 : k + j < l.length := by simp [List.length_drop] at h1; omega
      have hne : k + j ≠ i := by omega
      have := hagree (k + j) hj1 hne
      rw [List.getD_eq_getElem _ _ hj1, List.getD_eq_getElem _ _ (by omega : k + j < l'.length)] at this
      simpa [List.getElem_drop] using this
  · left
    constructor
    · apply List.ext_getElem (by simp [hlen])
      intro j h1 h2
      have hjk : j < k := by simp [List.length_take] at h1; omega
      have hjl : j < l.length := by simp [List.length_take] at h1; omega
      have hne : j ≠ i := by omega
      have := hagree j hjl hne
      rw [List.getD_eq_getElem _ _ hjl, List.getD_eq_getElem _ _ (by omega : j < l'.length)] at this
      simpa [List.getElem_take] using this
    · refine ⟨by simp [hlen], i - k, ?_, ?_, ?_⟩
      · simp only [List.length_drop]
        omega
      · rw [getD_drop_add, getD_drop_add, show k + (i - k) = i by omega]
        exact hdi
      · intro j hj hji
        rw [getD_drop_add, getD_drop_add]
        apply hagree (k + j) (by simp [List.length_drop] at hj; omega)
        omega

/-! ## Injectivity of the concrete tag encoder -/

theorem sepDigits_cons (b : Nat) (t : List Nat) :
    sepDigits (b :: t) = 2 :: (Nat.digits 2 b ++ sepDigits t) := by
  simp [sepDigits, List.flatMap_cons]

theorem sepDigits_lt3 : ∀ (l : List Nat), ∀ x ∈ sepDigits l, x < 3 := by
  intro l
  induction l with
  | nil => intro x hx; simp [sepDigits] at hx
  | cons b t ih =>
    intro x hx
    rw [sepDigits_cons] at hx
    rcases List.mem_cons.mp hx with rfl | hx2
    · omega
    · rcases List.mem_append.mp hx2 with hd | ht
      · have := Nat.digits_lt_base (by omega) hd
        omega
      · exact ih x ht

theorem digits_two_inj {b b' : Nat} (h : Nat.digits 2 b = Nat.digits 2 b') : b = b' := by
  have h2 := congrArg (Nat.ofDigits 2) h
  rwa [Nat.ofDigits_digits, Nat.ofDigits_digits] at h2

/-- Splitting a concatenation at the first separator digit. -/
theorem no2_split : ∀ (A A' R R' : List Nat), (∀ x ∈ A, x < 2) → (∀ x ∈ A', x < 2) →
    (R.head? = some 2 ∨ R = []) → (R'.head? = some 2 ∨ R' = []) →
    A ++ R = A' ++ R' → A = A' ∧ R = R' := by
  intro A
  induction A with
  | nil =>
    intro A' R R' _ hA' hR hR' heq
    cases A' with
    | nil => exact ⟨rfl, heq⟩
    | cons a rest =>
      exfalso
      simp only [List.nil_append, List.cons_append] at heq
      subst heq
      rcases hR with hh | hh
      · have : a = 2 := by simpa using hh
        have := hA' a (by simp)
        omega
      · simp at hh
  | cons a A ih =>
    intro A' R R' hA hA' hR hR' heq
    cases A' with
    | nil =>
      exfalso
      simp only [List.cons_append, List.nil_append] at heq
      rcases hR' with hh | hh
      · rw [← heq] at hh
        have : a = 2 := by simpa using hh
        have := hA a (by simp)
        omega
      · subst hh
        simp at heq
    | cons a' rest' =>
      simp only [List.cons_append, List.cons.injEq] at heq
      obtain ⟨rfl, htail⟩ := heq
      obtain ⟨h1, h2⟩ := ih rest' R R' (fun x hx => hA x (by simp [hx]))
        (fun x hx => hA' x (by simp [hx])) hR hR' htail
      exact ⟨by rw [h1], h2⟩

theorem sepDigits_head_prop (l : List Nat) :
    (sepDigits l).head? = some 2 ∨ sepDigits l = [] := by
  cases l with
  | nil => right; rfl
  | cons b t => left; rw [sepDigits_cons]; rfl

theorem sepDigits_inj : ∀ (l l' : List Nat), sepDigits l = sepDigits l' → l = l' := by
  intro l
  induction l with
  | nil =>
    intro l' h
    cases l' with
    | nil => rfl
    | cons b t =>
      rw [sepDigits_cons] at h
      simp [sepDigits] at h
  | cons b t ih =>
    intro l' h
    cases l' with
    | nil =>
      rw [sepDigits_cons] at h
      simp [sepDigits] at h
    | cons b' t' =>
      rw [sepDigits_cons, sepDigits_cons] at h
      injection h with hd htail
      obtain ⟨hdig, hrest⟩ := no2_split (Nat.digits 2 b) (Nat.digits 2 b') (sepDigits t)
        (sepDigits t')
        (fun x hx => Nat.digits_lt_base (by omega) hx)
        (fun x hx => Nat.digits_lt_base (by omega) hx)
        (sepDigits_head_prop t) (sepDigits_head_prop t') htail
      rw [digits_two_inj hdig, ih t' hrest]

theorem encL_inj {l l' : List Nat} (h : encL l = encL l') : l = l' := by
  have wlt : ∀ (m : List Nat), ∀ x ∈ sepDigits m ++ [1], x < 3 := by
    intro m x hx
    rcases List.mem_append.mp hx with hs | h1
    · exact sepDigits_lt3 m x hs
    · simp at h1
      omega
  have wlast : ∀ (m : List Nat) (hne : sepDigits m ++ [1] ≠ []),
      (sepDigits m ++ [1]).getLast hne ≠ 0 := by
    intro m hne
    rw [List.getLast_concat]
    omega
  have hdig := congrArg (Nat.digits 3) h
  rw [show encL l = Nat.ofDigits 3 (sepDigits l ++ [1]) from rfl,
    show encL l' = Nat.ofDigits 3 (sepDigits l' ++ [1]) from rfl,
    Nat.digits_ofDigits 3 (by omega) _ (wlt l) (wlast l),
    Nat.digits_ofDigits 3 (by omega) _ (wlt l') (wlast l')] at hdig
  exact sepDigits_inj l l' (List.append_inj' hdig rfl).1

theorem encTriple_inj {k iv m k' iv' m' : List Nat}
    (h : encTriple k iv m = encTriple k' iv' m') : k = k' ∧ iv = iv' ∧ m = m' := by
  have h1 := encL_inj h
  simp only [List.cons.injEq, and_true] at h1
  obtain ⟨hk, hiv, hm⟩ := h1
  exact ⟨encL_inj hk, encL_inj hiv, encL_inj hm⟩

/-! ## The concrete AEAD satisfies the GCM binding contracts -/

theorem toyDec_eq_some {k iv c m : List Nat} (h : toyDec k iv c = some m) :
    c = toyEnc k iv m := by
  simp only [toyDec] at h
  split at h
  · injection h with hm
    subst hm
    assumption
  · exact absurd h (by simp)

theorem toyEnc_parts {k iv m k' iv' m' : List Nat} (hlen : m.length = m'.length)
    (h : toyEnc k iv m = toyEnc k' iv' m') : k = k' ∧ iv = iv' ∧ m = m' := by
  obtain ⟨hm, htag⟩ := List.append_inj h hlen
  have htrip : encTriple k iv m = encTriple k' iv' m' := by
    have := congrArg (fun l => l.headD 0) htag
    simpa [tagList] using this
  obtain ⟨hk, hiv2, -⟩ := encTriple_inj htrip
  exact ⟨hk, hiv2, hm⟩

theorem toyEnc_len_eq {k iv m k' iv' m' : List Nat}
    (h : toyEnc k iv m = toyEnc k' iv' m') : m.length = m'.length := by
  have := congrArg List.length h
  rw [toyEnc_length, toyEnc_length] at this
  omega

/-- A wrong key is rejected: the tag binds the key. -/
theorem toy_keybind (k k' iv iv' m : List Nat) (hk : k' ≠ k) :
    toyDec k' iv' (toyEnc k iv m) = none := by
  cases hd : toyDec k' iv' (toyEnc k iv m) with
  | none => rfl
  | some m0 =>
    exfalso
    have hc := toyDec_eq_some hd
    obtain ⟨hk', -, -⟩ := toyEnc_parts (toyEnc_len_eq hc) hc
    exact hk hk'.symm

/-- A wrong nonce is rejected: the tag binds the IV. -/
theorem toy_ivbind (k iv iv' m : List Nat) (hiv : iv' ≠ iv) :
    toyDec k iv' (toyEnc k iv m) = none := by
  cases hd : toyDec k iv' (toyEnc k iv m) with
  | none => rfl
  | some m0 =>
    exfalso
    have hc := toyDec_eq_some hd
    obtain ⟨-, hiv2, -⟩ := toyEnc_parts (toyEnc_len_eq hc) hc
    exact hiv hiv2.symm

/-- A ciphertext altered in a single position is rejected: the tag binds
the payload and the tag itself cannot be altered consistently. -/
theorem toy_tamper (k iv m c' : List Nat) (h : oneEntryDiff c' (toyEnc k iv m)) :
    toyDec k iv c' = none := by
  cases hd : toyDec k iv c' with
  | none => rfl
  | some m0 =>
    exfalso
    have hc : c' = toyEnc k iv m0 := toyDec_eq_some hd
    subst hc
    have hmlen : m0.length = m.length := by
      obtain ⟨hlen, -⟩ := h
      rw [toyEnc_length, toyEnc_length] at hlen
      omega
    rcases oneEntryDiff_split m.length h with ⟨hteq, hdrop⟩ | ⟨htake, hdeq⟩
    · -- the altered position is inside the tag, so the payloads agree
      have hm0 : m0 = m := by
        have h1 : (toyEnc k iv m0).take m.length = m0 := by
          rw [← hmlen]
          exact List.take_left' rfl
        have h2 : (toyEnc k iv m).take m.length = m := List.take_left' rfl
        rw [h1, h2] at hteq
        exact hteq
      subst hm0
      exact oneEntryDiff_ne hdrop rfl
    · -- the altered position is inside the payload, so the tags agree
      have ht1 : (toyEnc k iv m0).drop m.length = tagList k iv m0 := by
        rw [← hmlen]
        exact List.drop_left' rfl
      have ht2 : (toyEnc k iv m).drop m.length = tagList k iv m := List.drop_left' rfl
      rw [ht1, ht2] at hdeq
      have htrip : encTriple k iv m0 = encTriple k iv m := by
        have := congrArg (fun l => l.headD 0) hdeq
        simpa [tagList] using this
      obtain ⟨-, -, hm0⟩ := encTriple_inj htrip
      subst hm0
      exact oneEntryDiff_ne htake rfl

/-! ## Strictness of the concrete point codec and shared-bits injectivity -/

theorem p256_order_lt_pow32 : P256_ORDER < 256 ^ 32 := by decide

theorem toyPFrom_iff (bs : List Nat) (p : Nat) :
    toyPFrom bs = some p ↔ (p < P256_ORDER ∧ bs = toyPtB p) := by
  constructor
  · intro h
    simp only [toyPFrom] at h
    split at h
    · injection h with hv
      subst hv
      rename_i hcond
      exact ⟨hcond.1, hcond.2⟩
    · exact absurd h (by simp)
  · rintro ⟨hp, rfl⟩
    exact toyPFrom_toyPtB hp

theorem toyShB_inj (p q : Nat) (hp : p < P256_ORDER) (hq : q < P256_ORDER)
    (h : toyShB p = toyShB q) : p = q :=
  beBytesFixed_inj (lt_trans hp p256_order_lt_pow32) (lt_trans hq p256_order_lt_pow32) h

/-- Multiplication by a nonzero scalar is injective on reduced discrete
logs, because the group order is prime. -/
theorem p256_mul_cancel {p q b : Nat} (hp : p < P256_ORDER) (hq : q < P256_ORDER)
    (hb : ¬ P256_ORDER ∣ b) (h : p256PointMulDlog p b = p256PointMulDlog q b) :
    p = q := by
  have hco : Nat.gcd P256_ORDER b = 1 :=
    (Nat.Prime.coprime_iff_not_dvd prime_P256_ORDER).mpr hb
  have hmod : p * b ≡ q * b [MOD P256_ORDER] := h
  have := Nat.ModEq.cancel_right_of_coprime hco hmod
  calc p = p % P256_ORDER := (Nat.mod_eq_of_lt hp).symm
    _ = q % P256_ORDER := this
    _ = q := Nat.mod_eq_of_lt hq

/-- C3: altering a single byte of a valid ciphertext blob, in any of its
three sections, makes decrypt fail (with a decode error in the ephemeral
key section or an authentication error elsewhere); decrypt never returns
any plaintext on such a modified blob.  The hypotheses state the
idealised library contracts this rests on: the raw point codec accepts
exactly the canonical encodings, the ECDH output does not collide on
distinct shared points, and AES-GCM rejects a sealing whose key, nonce or
body-and-tag has been altered (for the real primitives the last two hold
except with negligible probability). -/
theorem single_corruption_rejected (ptB : Nat → List Nat)
    (pFrom : List Nat → Option Nat) (shB : Nat → List Nat)
    (aesGcmEnc : List Nat → List Nat → List Nat → List Nat)
    (aesGcmDec : List Nat → List Nat → List Nat → Option (List Nat))
    (hcodec : ∀ bs p, pFrom bs = some p ↔ (p < P256_ORDER ∧ bs = ptB p))
    (hpt : ∀ p, (ptB p).length = 65)
    (hshInj : ∀ p q, p < P256_ORDER → q < P256_ORDER → shB p = shB q → p = q)
    (htamper : ∀ k iv m c', oneEntryDiff c' (aesGcmEnc k iv m) → aesGcmDec k iv c' = none)
    (hivbind : ∀ k iv iv' m, iv' ≠ iv → aesGcmDec k iv' (aesGcmEnc k iv m) = none)
    (hkeybind : ∀ k k' iv iv' m, k' ≠ k → aesGcmDec k' iv' (aesGcmEnc k iv m) = none)
    (recipientPrivate ephemeralPrivate : Nat)
    (hb1 : 1 ≤ recipientPrivate) (hb2 : recipientPrivate ≤ P256_ORDER - 1)
    (iv msg blob' : List Nat) (hiv : iv.length = 12)
    (hdiff : oneEntryDiff blob'
      (eciesEncrypt ptB shB aesGcmEnc (p256GenMulDlog recipientPrivate)
        ephemeralPrivate iv msg)) :
    eciesDecrypt pFrom shB aesGcmDec recipientPrivate blob' = none := by
  have horder := p256_order_two_le
  obtain ⟨hs1, hs2, hs3⟩ := ecies_blob_sections (ptB (p256GenMulDlog ephemeralPrivate)) iv
    (aesGcmEnc (shB (p256PointMulDlog (p256GenMulDlog recipientPrivate) ephemeralPrivate))
      iv msg) (hpt _) hiv
  simp only [eciesEncrypt] at hdiff
  have hKey : shB (p256PointMulDlog (p256GenMulDlog recipientPrivate) ephemeralPrivate)
      = shB (p256PointMulDlog (p256GenMulDlog ephemeralPrivate) recipientPrivate) := by
    rw [p256_dh_comm recipientPrivate ephemeralPrivate]
  have hndvd : ¬ P256_ORDER ∣ recipientPrivate := by
    intro hdvd
    have := Nat.le_of_dvd (by omega) hdvd
    omega
  have hephlt : p256GenMulDlog ephemeralPrivate < P256_ORDER := p256GenMulDlog_lt _
  have hpA : pFrom (ptB (p256GenMulDlog ephemeralPrivate))
      = some (p256GenMulDlog ephemeralPrivate) :=
    (hcodec _ _).mpr ⟨hephlt, rfl⟩
  simp only [eciesDecrypt]
  rcases oneEntryDiff_split 65 hdiff with ⟨ht65, hd65⟩ | ⟨ht65, hd65⟩
  · -- the ephemeral-key section is intact
    rw [ht65, hs1, hpA]
    show aesGcmDec (shB (p256PointMulDlog (p256GenMulDlog ephemeralPrivate)
      recipientPrivate)) ((blob'.drop 65).take 12) (blob'.drop 77) = none
    have hd77 : blob'.drop 77 = (blob'.drop 65).drop 12 := by rw [List.drop_drop]
    have hd77b : (ptB (p256GenMulDlog ephemeralPrivate) ++ iv ++
          aesGcmEnc (shB (p256PointMulDlog (p256GenMulDlog recipientPrivate)
            ephemeralPrivate)) iv msg).drop 77
        = ((ptB (p256GenMulDlog ephemeralPrivate) ++ iv ++
          aesGcmEnc (shB (p256PointMulDlog (p256GenMulDlog recipientPrivate)
            ephemeralPrivate)) iv msg).drop 65).drop 12 := by
      rw [List.drop_drop]
    rcases oneEntryDiff_split 12 hd65 with ⟨ht12, hd12⟩ | ⟨ht12, hd12⟩
    · -- the IV is intact, the ciphertext-and-tag section was altered
      rw [ht12, hs2, ← hKey]
      apply htamper
      rw [← hd77] at hd12
      rw [← hd77b, hs3] at hd12
      exact hd12
    · -- the IV section was altered
      have hivne : (blob'.drop 65).take 12 ≠ iv := by
        have := oneEntryDiff_ne ht12
        rw [hs2] at this
        exact this
      rw [← hKey, hd77, hd12, ← hd77b, hs3]
      exact hivbind _ _ _ _ hivne
  · -- the ephemeral-key section was altered
    have hephne : blob'.take 65 ≠ ptB (p256GenMulDlog ephemeralPrivate) := by
      have := oneEntryDiff_ne ht65
      rw [hs1] at this
      exact this
    cases hp : pFrom (blob'.take 65) with
    | none => rfl
    | some P =>
      show aesGcmDec (shB (p256PointMulDlog P recipientPrivate))
        ((blob'.drop 65).take 12) (blob'.drop 77) = none
      obtain ⟨hPlt, hPbs⟩ := (hcodec _ _).mp hp
      have hPne : P ≠ p256GenMulDlog ephemeralPrivate := by
        intro hPe
        subst hPe
        exact hephne hPbs
      have hkne : shB (p256PointMulDlog P recipientPrivate)
          ≠ shB (p256PointMulDlog (p256GenMulDlog recipientPrivate) ephemeralPrivate) := by
        rw [hKey]
        intro hshEq
        have hmul := hshInj _ _ (p256PointMulDlog_lt _ _) (p256PointMulDlog_lt _ _) hshEq
        exact hPne (p256_mul_cancel hPlt hephlt hndvd hmul)
      have hiv' : (blob'.drop 65).take 12 = iv := by
        rw [hd65, hs2]
      have hct' : blob'.drop 77 = aesGcmEnc (shB (p256PointMulDlog
          (p256GenMulDlog recipientPrivate) ephemeralPrivate)) iv msg := by
        have h1 : blob'.drop 77 = (blob'.drop 65).drop 12 := by rw [List.drop_drop]
        rw [h1, hd65, List.drop_drop, show (12 + 65 : Nat) = 77 from rfl, hs3]
      rw [hiv', hct']
      exact hkeybind _ _ _ _ _ hkne

/-- Witness for C3: altering the first byte of a concrete blob (the
format byte of the ephemeral key) makes the concrete decrypt fail. -/
theorem single_corruption_rejected_witness :
    eciesDecrypt toyPFrom toyShB toyDec 1
      (5 :: (eciesEncrypt toyPtB toyShB toyEnc (p256GenMulDlog 1) 2
        (List.replicate 12 0) [7]).tail) = none := by
  have hblob : eciesEncrypt toyPtB toyShB toyEnc (p256GenMulDlog 1) 2
      (List.replicate 12 0) [7]
      = 4 :: (beBytesFixed 64 (p256GenMulDlog 2) ++ (List.replicate 12 0 ++
          toyEnc (toyShB (p256PointMulDlog (p256GenMulDlog 1) 2))
            (List.replicate 12 0) [7])) := by
    simp [eciesEncrypt, toyPtB, List.cons_append, List.append_assoc]
  rw [hblob, List.tail_cons]
  apply single_corruption_rejected toyPtB toyPFrom toyShB toyEnc toyDec
    toyPFrom_iff toyPtB_length toyShB_inj toy_tamper toy_ivbind toy_keybind 1 2
    (by decide) (by decide) (List.replicate 12 0) [7] _ (by simp)
  rw [hblob]
  exact oneEntryDiff_cons_head _ (by decide)

/-- Witness for the amended C8 on a successfully decrypting blob. -/
theorem decrypt_never_masks_failure_witness :
    ∃ eph,
      toyPFrom ((eciesEncrypt toyPtB toyShB toyEnc (p256GenMulDlog 3) 5
        (List.replicate 12 0) [7]).take 65) = some eph ∧
      toyDec (toyShB (p256PointMulDlog eph 3))
        (((eciesEncrypt toyPtB toyShB toyEnc (p256GenMulDlog 3) 5
          (List.replicate 12 0) [7]).drop 65).take 12)
        ((eciesEncrypt toyPtB toyShB toyEnc (p256GenMulDlog 3) 5
          (List.replicate 12 0) [7]).drop 77) = some [7] :=
  decrypt_never_masks_failure toyPFrom toyShB toyDec 3 _ [7]
    (ecies_round_trip_helper toyPtB toyPFrom toyShB toyEnc toyDec 3 5
      (List.replicate 12 0) [7] (toyPtB_length _) (by simp)
      (toyPFrom_toyPtB (p256GenMulDlog_lt 5)) toy_round)

end DonationCore
